import Mathlib

/-!
Verification of the WEMD core: the zeromq work-dispatch fabric
(src/wemd/work_managers/zeromq.py) and the HDF5 iteration archive
(src/wemd/data_manager.py), shallowly embedded in Lean.

Conventions of the embedding:
* machine integers (numpy uint32 columns) are `Nat` with explicit `% 2^32`
  where the stored value is a uint32;
* float64 payload fields (weights, times, pcoord values) are never computed
  with by any verified property, so they are carried as opaque `Int` payloads;
* wall-clock times compared by the dispatcher are carried as `Rat`;
* fallible Python code (raise / assert) is `Except String`.
-/

namespace WEMD

/-- 2^32, the modulus of the numpy uint32 columns of `seg_index`. -/
def U32 : Nat := 2 ^ 32

deriving instance DecidableEq for Except

/-! ### Dispatcher (ZMaster, zeromq.py lines 22-176) -/

/-- State of `ZMaster` relevant to `handle_request` / `announce_tasks`:
the FIFO `task_queue` (envelopes opaque, carried as `Nat` ids), the
`last_contact` and `last_announcement` wall clocks and the
`announce_interval` tunable (default 10 s). -/
structure MasterState where
  task_queue : List Nat
  last_contact : Rat
  last_announcement : Rat
  announce_interval : Rat
deriving DecidableEq

/-- The pop loop of `ZMaster.handle_request`:
`while len(to_send) < n_tasks: to_send.append(task_queue.popleft())`,
stopping early on `IndexError` (empty deque). Returns
(sent list, remaining queue). -/
def popTasks : Nat → List Nat → List Nat × List Nat
  | 0, q => ([], q)
  | _ + 1, [] => ([], [])
  | n + 1, t :: q =>
    let r := popTasks n q
    (t :: r.1, r.2)

/-- `ZMaster.handle_request(n_tasks)` (zeromq.py lines 59-70):
records `last_contact = time.time()` (modelled by `now`), pops up to
`n_tasks` envelopes FIFO from `task_queue` and sends that list. -/
def handle_request (st : MasterState) (now : Rat) (n_tasks : Nat) :
    MasterState × List Nat :=
  let r := popTasks n_tasks st.task_queue
  ({ st with last_contact := now, task_queue := r.2 }, r.1)

/-- `ZMaster.announce_tasks` (zeromq.py lines 148-156): publish a
`taskavail` announcement if the queue is non-empty and at least
`announce_interval` has elapsed since `last_announcement`; otherwise
(note: *also* when the queue is non-empty but the gap is too small)
reset `last_announcement` to 0. Returns the new state and whether a
`taskavail` message was published. -/
def announce_tasks (st : MasterState) (now : Rat) : MasterState × Bool :=
  if st.task_queue.length ≠ 0 ∧ st.announce_interval ≤ now - st.last_announcement then
    ({ st with last_announcement := now }, true)
  else
    ({ st with last_announcement := 0 }, false)

/-! ### Worker (ZWorker, zeromq.py lines 196-282) -/

/-- Announcement-channel message kinds received by `ZWorker.listen_loop`. -/
inductive AnnMsg
  | shutdownMsg
  | taskavail (endpoint : Nat)
  | unknown
deriving DecidableEq

/-- State of `ZWorker` relevant to shutdown behaviour. -/
structure WorkerState where
  n_procs : Nat
  shutdown_flag : Bool
deriving DecidableEq

/-- `ZWorker.__init__` (zeromq.py lines 197-210): `shutdown_flag = False`. -/
def zworkerInit (n_procs : Nat) : WorkerState :=
  { n_procs := n_procs, shutdown_flag := false }

/-- `ZWorker.shutdown` (zeromq.py lines 212-214): assigns
`self.shutdown_flag = False` (sic: the source writes `False`). -/
def zworkerShutdown (w : WorkerState) : WorkerState :=
  { w with shutdown_flag := false }

/-- `ZWorker.listen_loop` (zeromq.py lines 221-263) as a function of the
finite stream of announcement messages the poll delivers.  Returns `true`
iff the loop terminates: either the `while not shutdown_flag` condition
fails (falling through to the `else` clause), or a `shutdown` message is
received (`return`).  `taskavail` and unknown messages are handled and the
loop continues; an exhausted stream means the worker is still blocked in
`poller.poll()`. -/
def listen_loop : Bool → List AnnMsg → Bool
  | true, _ => true
  | false, [] => false
  | false, m :: rest =>
    match m with
    | .shutdownMsg => true
    | _ => listen_loop false rest

/-! ### Local parallelism (ZWorker.do_tasks, zeromq.py lines 265-282) -/

/-- `n_blocks` of `ZWorker.do_tasks`: `len(tasks) // n_procs`, plus one
when the division is not exact — the number of columns of the task
array, ceil(k / n_procs). -/
def n_blocks (k n_procs : Nat) : Nat :=
  if k % n_procs = 0 then k / n_procs else k / n_procs + 1

/-- Cell (i, j) of `taskarray = numpy.empty((n_procs, n_blocks), object)`
after `taskarray.flat[0:len(tasks)] = tasks`.  `.flat` enumerates in
C (row-major) index order, so cell (i, j) holds task `i * n_blocks + j`,
and `none` (numpy `None`) past the end of the task list. -/
def taskCell (tasks : List α) (n_procs i j : Nat) : Option α :=
  tasks.get? (i * n_blocks tasks.length n_procs + j)

/-- The tasks thread `i` executes: its row `taskarray[i, :]`, in column
order, with empty (`None`) cells skipped. -/
def threadTasks (tasks : List α) (n_procs i : Nat) : List α :=
  (List.range (n_blocks tasks.length n_procs)).filterMap (taskCell tasks n_procs i)

/-- `ZWorker.do_tasks`.  The per-thread execution is `TaskThread`, whose
class body is not among the provided sources; modelled from the spec:
thread `i` executes its row sequentially, skipping empty cells, collecting
results in order (`exec` is the task-to-result step), and `do_tasks` joins
`thread.results` in thread order. -/
def do_tasks (exec : α → β) (tasks : List α) (n_procs : Nat) : List β :=
  ((List.range n_procs).map (fun i => (threadTasks tasks n_procs i).map exec)).flatten

/-- The layout the claim asserts (for comparison): a column-major fill of
the n_procs × ceil(k/n_procs) array, i.e. cell (i, j) holds task
`j * n_procs + i`, so thread `i` would execute tasks i, i + n_procs, …. -/
def columnMajorThreadTasks (tasks : List α) (n_procs i : Nat) : List α :=
  (List.range (n_blocks tasks.length n_procs)).filterMap
    (fun j => tasks.get? (j * n_procs + i))

/-! ### Work-manager facade (ZMQWorkManager.propagate, zeromq.py 393-443) -/

/-- Outcome of the result-reconciliation loop of `propagate`. -/
inductive PropOutcome
  | ok (completed : Finset Int) (drained : List (List Int))
  | assertFail
  | hang
deriving DecidableEq

/-- The `while len(completed_ids) < len(segments)` loop of `propagate`,
reduced to the seg_ids: each drained batch is the list of seg_ids of one
result's segments.  `incoming_ids` is the batch as a set; the two
assertions are `(outgoing & incoming) == incoming` and
`len(incoming & completed) == 0`; then `completed |= incoming`.  The loop
exits once `completed` has reached the number of outgoing segments; an
exhausted queue before that point is a hang (the source blocks on
`results_avail.wait()`). -/
def propagateAux (nSegs : Nat) (outgoing : Finset Int) :
    Finset Int → List (List Int) → List (List Int) → PropOutcome
  | completed, batches, drained =>
    if nSegs ≤ completed.card then .ok completed drained
    else
      match batches with
      | [] => .hang
      | b :: rest =>
        if ¬ b.toFinset ⊆ outgoing then .assertFail
        else if ¬ b.toFinset ∩ completed = ∅ then .assertFail
        else propagateAux nSegs outgoing (completed ∪ b.toFinset) rest (drained ++ [b])

/-- A run of `ZMQWorkManager.propagate` on segments with ids `segIds`,
receiving the given queue of result batches. -/
def propagateRun (segIds : List Int) (batches : List (List Int)) : PropOutcome :=
  propagateAux segIds.length segIds.toFinset ∅ batches []

/-- The claim's precondition on the result batches, relative to the ids
completed so far: every batch contains only dispatched ids and none
already completed. -/
def goodBatches (outgoing : Finset Int) : Finset Int → List (List Int) → Bool
  | _, [] => true
  | completed, b :: rest =>
    decide (b.toFinset ⊆ outgoing) && decide (b.toFinset ∩ completed = ∅) &&
      goodBatches outgoing (completed ∪ b.toFinset) rest

/-! ### Archive data model (data_manager.py) -/

/-- A progress-coordinate array: shape `[nrows, ncols]` with its (opaque)
float64 payload flattened into `data`. -/
structure Pcoord where
  nrows : Nat
  ncols : Nat
  data : List Int
deriving DecidableEq

/-- An auxiliary (supplementary) data array carried in `Segment.data`:
its shape, a tag standing for its numpy dtype, and its opaque payload. -/
structure AuxVal where
  shape : List Nat
  dtype : Nat
  data : List Int
deriving DecidableEq

/-- A segment as passed to `prepare_iteration`: possibly-unset `seg_id`
(asserted to match its position when set), status and weight, the primary
parent (Python `None` is `none`), the parent-id set, and an optional
initial or full pcoord. -/
structure InSegment where
  seg_id : Option Nat
  status : Nat
  weight : Int
  p_parent_id : Option Int
  parent_ids : Finset Int
  pcoord : Option Pcoord
deriving DecidableEq

/-- One row of the `seg_index` dataset (`seg_index_dtype`,
data_manager.py lines 38-44).  `parents_offset` and `n_parents` are
numpy uint32 columns; their stored values are reduced `% 2^32`. -/
structure SegIndexRow where
  weight : Int
  cputime : Int
  walltime : Int
  parents_offset : Nat
  n_parents : Nat
  status : Nat
  endpoint_type : Nat
deriving DecidableEq

/-- The per-iteration group as far as the verified operations read and
write it: the `seg_index` table, the flat `parents` vector (empty when the
dataset is omitted), the `pcoord` cube (one `Pcoord` per segment) and the
named auxiliary datasets created by `update_segments`. -/
structure IterStore where
  seg_index : List SegIndexRow
  parents : List Int
  pcoord : List Pcoord
  datasets : List (String × List AuxVal)
deriving DecidableEq

/-- `len(segment.parent_ids)`. -/
def segNParents (s : InSegment) : Nat := s.parent_ids.card

/-- The `n_parents` uint32 cell stored for a segment. -/
def storedNParents (s : InSegment) : Nat := segNParents s % U32

/-- Exact (unbounded) prefix sum of the `n_parents` column:
the intended parents offset of segment `i`. -/
def pureOffset (segs : List InSegment) (i : Nat) : Nat :=
  ((segs.take i).map segNParents).sum

/-- The `parents_offset` uint32 cell stored for segment `i`
(`numpy.add.accumulate` over the uint32 `n_parents` column wraps each
partial sum modulo 2^32). -/
def storedOffset (segs : List InSegment) (i : Nat) : Nat :=
  pureOffset segs i % U32

/-- `total_parents = numpy.sum(seg_index_table[:]['n_parents'])`
(64-bit accumulator; exact for any realizable input). -/
def totalParents (segs : List InSegment) : Nat :=
  (segs.map segNParents).sum

/-- The slice of the `parents` vector written for one segment
(data_manager.py lines 227-237): the primary parent first, then the
remaining parents in ascending order.  Only evaluated after the
`p_parent_id in parent_ids` assertion has passed. -/
def parentSlice (s : InSegment) : List Int :=
  match s.p_parent_id with
  | none => []
  | some p => p :: (s.parent_ids.erase p).sort (· ≤ ·)

/-- Range assignment `arr[off : off + len(vals)] = vals`. -/
def writeAt (arr : List Int) (off : Nat) (vals : List Int) : List Int :=
  arr.take off ++ vals ++ arr.drop (off + vals.length)

/-- An all-zero pcoord array of shape `[plen, pdim]`, as created by
`iter_group.create_dataset('pcoord', …)`. -/
def zeroPc (plen pdim : Nat) : Pcoord :=
  { nrows := plen, ncols := pdim, data := List.replicate (plen * pdim) 0 }

/-- The per-segment checks and pcoord writes of the first loop of
`prepare_iteration` (data_manager.py lines 181-199), for the segment at
position `i`: the `seg_id` and `p_parent_id is not None` assertions, then
the pcoord shape handling — a single row is copied into row 0 of the cube
(a numpy broadcast, failing when the widths differ or the cube has no
rows), any other shape must equal `[pcoord_len, pcoord_ndim]`. -/
def segChecksA (plen pdim i : Nat) (s : InSegment) : Except String Unit :=
  if s.seg_id ≠ none ∧ s.seg_id ≠ some i then
    .error "assert segment.seg_id == seg_id"
  else if s.p_parent_id = none then
    .error "assert segment.p_parent_id is not None"
  else
    match s.pcoord with
    | none => .ok ()
    | some pc =>
      if pc.nrows = 1 then
        if plen = 0 then .error "IndexError: pcoord row 0"
        else if pc.ncols ≠ pdim then .error "could not broadcast pcoord row"
        else .ok ()
      else if (pc.nrows, pc.ncols) ≠ (plen, pdim) then
        .error "segment pcoord shape does not match expected shape"
      else .ok ()

/-- The first loop of `prepare_iteration` over all segments. -/
def checkSegsA (plen pdim : Nat) : Nat → List InSegment → Except String Unit
  | _, [] => .ok ()
  | i, s :: rest =>
    match segChecksA plen pdim i s with
    | .error e => .error e
    | .ok _ => checkSegsA plen pdim (i + 1) rest

/-- The second loop of `prepare_iteration` (data_manager.py lines
219-240), writing each segment's parents into the flat vector at its
stored offset.  `all` is the full segment list (the offsets are read from
the already-filled `seg_index_table`), `i` the current position.  The
asserts are, in source order: `extent == len(segment.parent_ids)`,
`extent > 0`, `p_parent_id in parent_ids`, and after the write,
`set(parents[offset:offset+extent]) == segment.parent_ids`. -/
def writeParents (all : List InSegment) : Nat → List InSegment → List Int →
    Except String (List Int)
  | _, [], arr => .ok arr
  | i, s :: rest, arr =>
    if storedNParents s ≠ segNParents s then .error "assert extent == len parent_ids"
    else if storedNParents s = 0 then .error "assert extent greater than 0"
    else
      match s.p_parent_id with
      | none => .error "assert segment.p_parent_id in segment.parent_ids"
      | some p =>
        if p ∉ s.parent_ids then .error "assert segment.p_parent_id in segment.parent_ids"
        else
          if (((writeAt arr (storedOffset all i) (parentSlice s)).drop
                (storedOffset all i)).take (storedNParents s)).toFinset
              = s.parent_ids then
            writeParents all (i + 1) rest
              (writeAt arr (storedOffset all i) (parentSlice s))
          else .error "assert stored slice equals parent_ids"

/-- The `seg_index` row built for the segment at position `i`
(status, weight and `n_parents` from the segment, `parents_offset` from
the accumulate; the remaining fields stay at `numpy.zeros`). -/
def prepRow (segs : List InSegment) (i : Nat) (s : InSegment) : SegIndexRow :=
  { weight := s.weight, cputime := 0, walltime := 0,
    parents_offset := storedOffset segs i, n_parents := storedNParents s,
    status := s.status, endpoint_type := 0 }

/-- The pcoord cube entry written for one segment: the zero array, with
either row 0 or the full array overwritten when the segment carries a
pcoord. -/
def prepPc (plen pdim : Nat) (s : InSegment) : Pcoord :=
  match s.pcoord with
  | none => zeroPc plen pdim
  | some pc =>
    if pc.nrows = 1 then
      { nrows := plen, ncols := pdim,
        data := writeAt (zeroPc plen pdim).data 0 (pc.data.take pc.ncols) }
    else pc

/-- `WEMDDataManager.prepare_iteration` (data_manager.py lines 129-248),
restricted to the iteration group it creates (the summary row and the
all-zero bin datasets carry no verified property).  The parents dataset is
created (and the second loop run) only when `total_parents > 0`. -/
def prepare_iteration (plen pdim : Nat) (segs : List InSegment) :
    Except String IterStore :=
  match checkSegsA plen pdim 0 segs with
  | .error e => .error e
  | .ok _ =>
    if 0 < totalParents segs then
      match writeParents segs 0 segs (List.replicate (totalParents segs) 0) with
      | .error e => .error e
      | .ok parents =>
        .ok { seg_index := segs.enum.map (fun p => prepRow segs p.1 p.2),
              parents := parents,
              pcoord := segs.map (prepPc plen pdim), datasets := [] }
    else
      .ok { seg_index := segs.enum.map (fun p => prepRow segs p.1 p.2),
            parents := [],
            pcoord := segs.map (prepPc plen pdim), datasets := [] }

/-- A segment as returned by `get_segments` / `get_segments_by_id`. -/
structure OutSegment where
  seg_id : Nat
  status : Nat
  n_parents : Nat
  endpoint_type : Nat
  walltime : Int
  cputime : Int
  weight : Int
  pcoord : Pcoord
  p_parent_id : Int
  parent_ids : Finset Int
deriving DecidableEq

/-- Build the `OutSegment` for row `i` given its parents slice
(non-empty, head = primary parent). -/
def mkOutSegment (store : IterStore) (i : Nat) (row : SegIndexRow)
    (p : Int) (slice : List Int) : OutSegment :=
  { seg_id := i, status := row.status, n_parents := row.n_parents,
    endpoint_type := row.endpoint_type, walltime := row.walltime,
    cputime := row.cputime, weight := row.weight,
    pcoord := store.pcoord.getD i (zeroPc 0 0),
    p_parent_id := p, parent_ids := slice.toFinset }

/-- The body of `get_segments` for one row (data_manager.py lines
361-377): slice the parents vector at `[parents_offset,
parents_offset + n_parents)`, take `parent_ids[0]` as the primary parent
(IndexError on an empty slice), build the id set, and assert
`len(segment.parent_ids) == n_parents`. -/
def readSeg (store : IterStore) (i : Nat) (row : SegIndexRow) :
    Except String OutSegment :=
  let slice := (store.parents.drop row.parents_offset).take row.n_parents
  match slice with
  | [] => .error "IndexError: parent_ids 0"
  | p :: _ =>
    if slice.toFinset.card = row.n_parents then
      .ok (mkOutSegment store i row p slice)
    else .error "assert len parent_ids == n_parents"

/-- The row loop of `get_segments`. -/
def readSegs (store : IterStore) : Nat → List SegIndexRow →
    Except String (List OutSegment)
  | _, [] => .ok []
  | i, row :: rest =>
    match readSeg store i row with
    | .error e => .error e
    | .ok seg =>
      match readSegs store (i + 1) rest with
      | .error e => .error e
      | .ok segs => .ok (seg :: segs)

/-- `WEMDDataManager.get_segments` (data_manager.py lines 349-378). -/
def get_segments (store : IterStore) : Except String (List OutSegment) :=
  readSegs store 0 store.seg_index

/-- One lookup of `get_segments_by_id` (data_manager.py lines 391-406):
like `readSeg` but indexing `seg_index[seg_id]` (IndexError when out of
range) and without the `len == n_parents` assertion, which that reader
does not perform. -/
def readSegById (store : IterStore) (i : Nat) : Except String OutSegment :=
  match store.seg_index.get? i with
  | none => .error "IndexError: seg_index"
  | some row =>
    let slice := (store.parents.drop row.parents_offset).take row.n_parents
    match slice with
    | [] => .error "IndexError: parent_ids 0"
    | p :: _ => .ok (mkOutSegment store i row p slice)

/-- The id loop of `get_segments_by_id`; an empty id list returns `[]`. -/
def get_segments_by_id (store : IterStore) : List Nat →
    Except String (List OutSegment)
  | [] => .ok []
  | i :: rest =>
    match readSegById store i with
    | .error e => .error e
    | .ok seg =>
      match get_segments_by_id store rest with
      | .error e => .error e
      | .ok segs => .ok (seg :: segs)

/-- The archive: `wemd_current_iteration` and one group per iteration
(`groups.get? (n-1)` is iteration `n`). -/
structure Archive where
  current_iteration : Nat
  groups : List IterStore
deriving DecidableEq

/-- `self.get_iter_group(n)`; `KeyError` when the group is absent. -/
def iterGroup (arch : Archive) (n : Nat) : Except String IterStore :=
  match arch.groups.get? (n - 1) with
  | some g => .ok g
  | none => .error "KeyError: iter group"

/-- The identity of a stored segment handed to `get_children`. -/
structure SegRef where
  n_iter : Nat
  seg_id : Nat
deriving DecidableEq

/-- The vectorized scan of `get_children` (data_manager.py lines
427-439): gather `parents[parents_offset]` for every row of the next
iteration's `seg_index` and keep the seg_ids whose entry equals the query
segment's id. -/
def childSegIds (g : IterStore) (pid : Nat) : List Nat :=
  (g.seg_index.enum.filter
    (fun p => g.parents.getD p.2.parents_offset 0 = (pid : Int))).map (·.1)

/-- `WEMDDataManager.get_children` (data_manager.py lines 417-445):
empty for the current iteration, otherwise the `get_segments_by_id`
read-back of the seg_ids of iteration `n_iter + 1` whose primary parent
(the parents entry at their offset) is the query segment's id. -/
def get_children (arch : Archive) (s : SegRef) :
    Except String (List OutSegment) :=
  if s.n_iter = arch.current_iteration then .ok []
  else
    match iterGroup arch (s.n_iter + 1) with
    | .error e => .error e
    | .ok g => get_segments_by_id g (childSegIds g s.seg_id)

/-! ### update_segments (data_manager.py lines 280-347) -/

/-- A propagated segment as passed to `update_segments`. -/
structure USegment where
  seg_id : Nat
  status : Nat
  endpoint_type : Option Nat
  cputime : Int
  walltime : Int
  weight : Int
  pcoord : Pcoord
  data : List (String × AuxVal)
deriving DecidableEq

/-- Modelled from the spec: `Segment.SEG_ENDPOINT_TYPE_NOTSET`
(segment.py is not among the provided sources) — the marker for the
`unset` endpoint type. -/
def segEndpointNotset : Nat := 0

/-- `segment.endpoint_type or Segment.SEG_ENDPOINT_TYPE_NOTSET`:
Python `or` replaces a falsy value (`None` or `0`). -/
def epStore : Option Nat → Nat
  | none => segEndpointNotset
  | some 0 => segEndpointNotset
  | some e => e

/-- The shape/dtype collection loop of `update_segments` (lines 306-318):
first appearance of a field records its shape and dtype; any later
mismatch raises `ValueError`. -/
def collectAux : List (String × (List Nat × Nat)) → List (String × AuxVal) →
    Except String (List (String × (List Nat × Nat)))
  | acc, [] => .ok acc
  | acc, (k, v) :: rest =>
    match acc.lookup k with
    | some sd =>
      if v.shape ≠ sd.1 then .error "incorrect shape for supplementary data field"
      else if v.dtype ≠ sd.2 then .error "incorrect data type for supplementary data field"
      else collectAux acc rest
    | none => collectAux (acc ++ [(k, (v.shape, v.dtype))]) rest

/-- The outer collection loop over all segments. -/
def collectAuxSegs (acc : List (String × (List Nat × Nat))) :
    List USegment → Except String (List (String × (List Nat × Nat)))
  | [] => .ok acc
  | s :: rest =>
    match collectAux acc s.data with
    | .error e => .error e
    | .ok acc2 => collectAuxSegs acc2 rest

/-- `iter_group.require_dataset(name, (n,) + shape, dtype)` for each
collected field: keep an existing dataset, else create one of `n`
entries. -/
def requireDatasets (ds : List (String × List AuxVal)) (n : Nat) :
    List (String × (List Nat × Nat)) → List (String × List AuxVal)
  | [] => ds
  | (k, sd) :: rest =>
    let ds2 := if (ds.lookup k).isSome then ds
               else ds ++ [(k, List.replicate n { shape := sd.1, dtype := sd.2, data := [] })]
    requireDatasets ds2 n rest

/-- `datasets[name][seg_id] = value` for one named dataset. -/
def setAux (ds : List (String × List AuxVal)) (k : String) (i : Nat)
    (v : AuxVal) : List (String × List AuxVal) :=
  ds.map (fun p => if p.1 = k then (p.1, p.2.set i v) else p)

/-- All auxiliary writes of one segment. -/
def writeAuxVals (ds : List (String × List AuxVal)) (s : USegment) :
    List (String × List AuxVal) :=
  s.data.foldl (fun d p => setAux d p.1 s.seg_id p.2) ds

/-- `row[:] = seg_index_table[seg_id]` followed by the five field
overwrites (lines 328-333): everything else — in particular
`parents_offset` and `n_parents` — is copied through unchanged. -/
def updRow (old : SegIndexRow) (s : USegment) : SegIndexRow :=
  { old with status := s.status, endpoint_type := epStore s.endpoint_type,
             cputime := s.cputime, walltime := s.walltime, weight := s.weight }

/-- The per-segment update loop of `update_segments` (lines 326-342):
index the row by `segment.seg_id` (IndexError out of range), rewrite it,
write the segment's pcoord and auxiliary values. -/
def applySegUpdates (store : IterStore) : List USegment → Except String IterStore
  | [] => .ok store
  | s :: rest =>
    match store.seg_index.get? s.seg_id with
    | none => .error "IndexError: seg_index"
    | some old =>
      applySegUpdates
        { store with
            seg_index := store.seg_index.set s.seg_id (updRow old s),
            pcoord := store.pcoord.set s.seg_id s.pcoord,
            datasets := writeAuxVals store.datasets s }
        rest

/-- `WEMDDataManager.update_segments` (data_manager.py lines 280-347):
collect auxiliary shapes, create the datasets, then update the mutable
fields of every listed segment.  The `parents` dataset is never touched. -/
def update_segments (store : IterStore) (segs : List USegment) :
    Except String IterStore :=
  match collectAuxSegs [] segs with
  | .error e => .error e
  | .ok shapes =>
    applySegUpdates
      { store with datasets := requireDatasets store.datasets store.seg_index.length shapes }
      segs

/-- The lineage content of a `seg_index` table: its `parents_offset` and
`n_parents` columns, in row order. -/
def lineageCols (store : IterStore) : List (Nat × Nat) :=
  store.seg_index.map (fun r => (r.parents_offset, r.n_parents))

/-! ## Helper lemmas -/

theorem popTasks_eq (n : Nat) (q : List Nat) :
    popTasks n q = (q.take n, q.drop n) := by
  induction n generalizing q with
  | zero => simp [popTasks]
  | succ n ih =>
    cases q with
    | nil => simp [popTasks]
    | cons t q => simp [popTasks, ih]

theorem listen_loop_false_iff (msgs : List AnnMsg) :
    listen_loop false msgs = true ↔ AnnMsg.shutdownMsg ∈ msgs := by
  induction msgs with
  | nil => simp [listen_loop]
  | cons m rest ih =>
    cases m with
    | shutdownMsg => simp [listen_loop]
    | taskavail e => simpa [listen_loop] using ih
    | unknown => simpa [listen_loop] using ih

theorem filterMap_get_shift (l : List α) (n : Nat) :
    ∀ a, (List.range n).filterMap (fun j => l.get? (a + j)) = (l.drop a).take n := by
  induction n with
  | zero => intro a; simp
  | succ n ih =>
    intro a
    rw [List.range_succ_eq_map, List.filterMap_cons, List.filterMap_map]
    have hcomp :
        (fun j => l.get? (a + j)) ∘ Nat.succ = fun j => l.get? ((a + 1) + j) := by
      funext j
      show l.get? (a + Nat.succ j) = l.get? (a + 1 + j)
      congr 1
      omega
    rw [hcomp, ih (a + 1)]
    by_cases hlt : a < l.length
    · have h : l.get? (a + 0) = some l[a] := by
        rw [Nat.add_zero, List.get?_eq_getElem?, List.getElem?_eq_getElem hlt]
      rw [h, List.drop_eq_getElem_cons hlt]
      rfl
    · have h : l.get? (a + 0) = none := by
        rw [Nat.add_zero, List.get?_eq_getElem?]
        exact List.getElem?_eq_none (by omega)
      rw [h, List.drop_eq_nil_of_le (by omega : l.length ≤ a)]
      show (l.drop (a + 1)).take n = List.take (n + 1) []
      rw [List.drop_eq_nil_of_le (by omega : l.length ≤ a + 1)]
      simp

theorem flatten_chunks (l : List α) (nB : Nat) (m : Nat) :
    ((List.range m).map (fun i => (l.drop (i * nB)).take nB)).flatten
      = l.take (m * nB) := by
  induction m with
  | zero => simp
  | succ m ih =>
    rw [List.range_succ, List.map_append, List.flatten_append, ih]
    simp only [List.map_cons, List.map_nil, List.flatten_cons, List.flatten_nil,
      List.append_nil]
    rw [← List.take_add]
    congr 1
    ring

theorem le_nprocs_mul_nblocks (k n : Nat) (hn : 1 ≤ n) :
    k ≤ n * n_blocks k n := by
  unfold n_blocks
  by_cases h : k % n = 0
  · simp only [h, if_pos]
    have := Nat.div_add_mod k n
    omega
  · simp only [h, if_neg, ite_false]
    have h1 := Nat.div_add_mod k n
    have h2 : k % n < n := Nat.mod_lt _ (by omega)
    have : n * (k / n + 1) = n * (k / n) + n := by ring
    omega

theorem threadTasks_eq_chunk (tasks : List α) (n_procs i : Nat) :
    threadTasks tasks n_procs i
      = (tasks.drop (i * n_blocks tasks.length n_procs)).take
          (n_blocks tasks.length n_procs) := by
  unfold threadTasks taskCell
  exact filterMap_get_shift tasks _ _

/-! ## C6: handle_request dequeues min(n, len) oldest tasks FIFO -/

/-- C6: handling a single `request n` message pops exactly the
`min(n, queue length)` oldest envelopes from `task_queue` in FIFO order,
replies with that list (empty when the queue is empty), updates
`last_contact` to the current time, and touches nothing else. -/
theorem handle_request_fifo (st : MasterState) (now : Rat) (n : Nat) :
    (handle_request st now n).2 = st.task_queue.take n ∧
    (handle_request st now n).2.length = min n st.task_queue.length ∧
    (handle_request st now n).1.task_queue = st.task_queue.drop n ∧
    st.task_queue
      = (handle_request st now n).2 ++ (handle_request st now n).1.task_queue ∧
    (st.task_queue = [] → (handle_request st now n).2 = []) ∧
    (handle_request st now n).1.last_contact = now ∧
    (handle_request st now n).1.last_announcement = st.last_announcement ∧
    (handle_request st now n).1.announce_interval = st.announce_interval := by
  unfold handle_request
  rw [popTasks_eq]
  refine ⟨rfl, ?_, rfl, ?_, ?_, rfl, rfl, rfl⟩
  · exact List.length_take n st.task_queue
  · exact (List.take_append_drop n st.task_queue).symm
  · intro h; simp [h]

/-! ## C10: ZWorker.shutdown leaves the flag False -/

/-- C10: `ZWorker.shutdown()` assigns `False` to `shutdown_flag` — the
same value it holds after construction — so the `while not shutdown_flag`
condition of `listen_loop` never becomes unsatisfied through this public
operation, and the loop terminates exactly when a `shutdown` message
arrives on the announcement channel. -/
theorem worker_shutdown_noop (w : WorkerState) (np : Nat) (msgs : List AnnMsg) :
    (zworkerShutdown w).shutdown_flag = false ∧
    (zworkerInit np).shutdown_flag = false ∧
    (listen_loop (zworkerShutdown w).shutdown_flag msgs = true
      ↔ AnnMsg.shutdownMsg ∈ msgs) := by
  refine ⟨rfl, rfl, ?_⟩
  exact listen_loop_false_iff msgs

/-! ## C2: the taskavail rate limit is defeated by the reset-to-zero -/

/-- C2 (code bug): with a non-empty queue and `announce_interval = 10`,
`announce_tasks` publishes at time 100, then at time 100.1 it publishes
nothing but resets `last_announcement` to 0 even though the queue is
non-empty, so at time 100.2 it publishes again — two `taskavail`
messages 0.2 s apart, far less than `announce_interval`. -/
theorem announce_interval_bug :
    (announce_tasks ⟨[0], 0, 0, 10⟩ 100).2 = true ∧
    (announce_tasks ⟨[0], 0, 0, 10⟩ 100).1.last_announcement = 100 ∧
    (announce_tasks ⟨[0], 0, 0, 10⟩ 100).1.task_queue = [0] ∧
    (announce_tasks (announce_tasks ⟨[0], 0, 0, 10⟩ 100).1 (1001/10)).2 = false ∧
    (announce_tasks (announce_tasks ⟨[0], 0, 0, 10⟩ 100).1
        (1001/10)).1.last_announcement = 0 ∧
    (announce_tasks (announce_tasks (announce_tasks ⟨[0], 0, 0, 10⟩ 100).1
        (1001/10)).1 (1002/10)).2 = true ∧
    ((1002 : Rat)/10 - 100 < 10) := by
  norm_num [announce_tasks]

/-! ## C4: do_tasks layout is row-major, not column-major -/

/-- C4 counterexample: with 3 tasks and `n_procs = 2` the array is
filled in C (row-major) `.flat` order, so thread 1 executes task 30
(index 2), not task 20 (index 1) as the claimed column-major layout
would have it; the concatenated results keep submission order. -/
theorem do_tasks_not_column_major :
    threadTasks ([10, 20, 30] : List Int) 2 1 = [30] ∧
    columnMajorThreadTasks ([10, 20, 30] : List Int) 2 1 = [20] ∧
    threadTasks ([10, 20, 30] : List Int) 2 1
      ≠ columnMajorThreadTasks ([10, 20, 30] : List Int) 2 1 ∧
    do_tasks (fun t => t) ([10, 20, 30] : List Int) 2 = [10, 20, 30] := by
  refine ⟨by decide, by decide, by decide, by decide⟩

/-- C4 (amended): `do_tasks` arranges the `k` tasks into an
`n_procs × ceil(k/n_procs)` array in row-major (C) order — thread `i`
executes the consecutive block of `ceil(k/n_procs)` tasks starting at
`i * ceil(k/n_procs)`, skipping empty cells — and the returned list is
the result of every submitted task exactly once, concatenated in thread
order, which preserves submission order. -/
theorem do_tasks_row_major_exact (exec : α → β) (tasks : List α)
    (n_procs : Nat) (hn : 1 ≤ n_procs) :
    (∀ i, threadTasks tasks n_procs i
        = (tasks.drop (i * n_blocks tasks.length n_procs)).take
            (n_blocks tasks.length n_procs)) ∧
    do_tasks exec tasks n_procs = tasks.map exec := by
  constructor
  · intro i; exact threadTasks_eq_chunk tasks n_procs i
  · unfold do_tasks
    have h1 : (List.range n_procs).map
        (fun i => (threadTasks tasks n_procs i).map exec)
      = (List.range n_procs).map
        (fun i => ((tasks.drop (i * n_blocks tasks.length n_procs)).take
            (n_blocks tasks.length n_procs)).map exec) := by
      apply List.map_congr_left
      intro i _
      rw [threadTasks_eq_chunk]
    rw [h1]
    have h2 : (List.range n_procs).map
        (fun i => ((tasks.drop (i * n_blocks tasks.length n_procs)).take
            (n_blocks tasks.length n_procs)).map exec)
      = ((List.range n_procs).map
        (fun i => (tasks.drop (i * n_blocks tasks.length n_procs)).take
            (n_blocks tasks.length n_procs))).map (List.map exec) := by
      rw [List.map_map]
      rfl
    rw [h2, ← List.map_flatten, flatten_chunks,
      List.take_of_length_le (le_nprocs_mul_nblocks _ _ hn)]

/-- Witness for `do_tasks_row_major_exact` at 3 tasks, 2 threads. -/
theorem do_tasks_row_major_exact_witness :
    threadTasks ([10, 20, 30] : List Int) 2 0
        = (([10, 20, 30] : List Int).drop 0).take (n_blocks 3 2) ∧
    do_tasks (fun t => t + 1) ([10, 20, 30] : List Int) 2 = [11, 21, 31] := by
  have h := do_tasks_row_major_exact (fun t : Int => t + 1) [10, 20, 30] 2
    (by decide)
  refine ⟨?_, ?_⟩
  · have h0 := h.1 0
    simpa using h0
  · rw [h.2]
    decide

/-! ## C5: propagate result reconciliation -/

theorem propAux_spec (n : Nat) (outg : Finset Int) :
    ∀ (bs : List (List Int)) (comp : Finset Int) (acc : List (List Int))
      (fc : Finset Int) (dr : List (List Int)),
      propagateAux n outg comp bs acc = .ok fc dr →
      (∀ b ∈ bs, b.Nodup) →
      ∃ used, dr = acc ++ used ∧ comp ⊆ fc ∧ fc ⊆ comp ∪ outg ∧ n ≤ fc.card ∧
        ∀ id : Int,
          (id ∈ comp → used.flatten.count id = 0) ∧
          (id ∉ comp → id ∈ fc → used.flatten.count id = 1) ∧
          (id ∉ comp → id ∉ fc → used.flatten.count id = 0) := by
  intro bs
  induction bs with
  | nil =>
    intro comp acc fc dr hok _
    rw [propagateAux] at hok
    split at hok
    · rename_i hdone
      injection hok with h1 h2
      subst h1
      subst h2
      refine ⟨[], by simp, subset_rfl, Finset.subset_union_left, hdone, ?_⟩
      intro id
      exact ⟨fun _ => by simp, fun hnc hc => absurd hc hnc, fun _ _ => by simp⟩
    · exact absurd hok (by simp)
  | cons b rest ih =>
    intro comp acc fc dr hok hnd
    rw [propagateAux] at hok
    split at hok
    · rename_i hdone
      injection hok with h1 h2
      subst h1
      subst h2
      refine ⟨[], by simp, subset_rfl, Finset.subset_union_left, hdone, ?_⟩
      intro id
      exact ⟨fun _ => by simp, fun hnc hc => absurd hc hnc, fun _ _ => by simp⟩
    · rename_i hnotdone
      split at hok
      · exact absurd hok (by simp)
      · split at hok
        · exact absurd hok (by simp)
        · rename_i hsub hdisj
          rw [not_not] at hsub hdisj
          obtain ⟨used2, hdr, hsub2, hsup2, hcard2, hcount2⟩ :=
            ih (comp ∪ b.toFinset) (acc ++ [b]) fc dr hok
              (fun x hx => hnd x (List.mem_cons_of_mem _ hx))
          refine ⟨b :: used2, by simpa using hdr, ?_, ?_, hcard2, ?_⟩
          · exact subset_trans Finset.subset_union_left hsub2
          · refine subset_trans hsup2 ?_
            rw [Finset.union_assoc]
            exact Finset.union_subset_union_right
              (Finset.union_subset (fun x hx => (hsub hx)) (subset_refl _))
          · intro id
            have hb_of_comp : id ∈ comp → id ∉ b := by
              intro hc hb
              have : id ∈ b.toFinset ∩ comp :=
                Finset.mem_inter.mpr ⟨List.mem_toFinset.mpr hb, hc⟩
              rw [hdisj] at this
              exact absurd this (Finset.not_mem_empty id)
            refine ⟨?_, ?_, ?_⟩
            · intro hc
              have h0 : used2.flatten.count id = 0 :=
                (hcount2 id).1 (Finset.mem_union_left _ hc)
              simp [List.count_eq_zero_of_not_mem (hb_of_comp hc), h0]
            · intro hnc hcf
              by_cases hb : id ∈ b
              · have h1 : b.count id = 1 :=
                  List.count_eq_one_of_mem (hnd b (List.mem_cons_self b rest)) hb
              -- the rest of used2 no longer contains id
                have h0 : used2.flatten.count id = 0 :=
                  (hcount2 id).1
                    (Finset.mem_union_right _ (List.mem_toFinset.mpr hb))
                simp [h1, h0]
              · have hnc2 : id ∉ comp ∪ b.toFinset := by
                  rw [Finset.mem_union]
                  push_neg
                  exact ⟨hnc, fun h => hb (List.mem_toFinset.mp h)⟩
                have h1 : used2.flatten.count id = 1 :=
                  (hcount2 id).2.1 hnc2 hcf
                simp [List.count_eq_zero_of_not_mem hb, h1]
            · intro hnc hnf
              have hb : id ∉ b := by
                intro hb
                exact hnf (hsub2 (Finset.mem_union_right _
                  (List.mem_toFinset.mpr hb)))
              have hnc2 : id ∉ comp ∪ b.toFinset := by
                rw [Finset.mem_union]
                push_neg
                exact ⟨hnc, fun h => hb (List.mem_toFinset.mp h)⟩
              have h0 : used2.flatten.count id = 0 :=
                (hcount2 id).2.2 hnc2 hnf
              simp [List.count_eq_zero_of_not_mem hb, h0]

theorem propAux_safe (n : Nat) (outg : Finset Int) :
    ∀ (bs : List (List Int)) (comp : Finset Int) (acc : List (List Int)),
      goodBatches outg comp bs = true →
      propagateAux n outg comp bs acc ≠ .assertFail := by
  intro bs
  induction bs with
  | nil =>
    intro comp acc _
    rw [propagateAux]
    split
    · simp
    · simp
  | cons b rest ih =>
    intro comp acc hg
    rw [goodBatches, Bool.and_eq_true, Bool.and_eq_true] at hg
    obtain ⟨⟨hs, hd⟩, hrest⟩ := hg
    rw [propagateAux]
    split
    · simp
    · rw [if_neg (by simpa using of_decide_eq_true hs),
        if_neg (by simpa using of_decide_eq_true hd)]
      exact ih _ _ hrest

/-- C5 counterexample: `Propagate` on the single segment id 0, drained
batches `[[0, 0]]` (the id duplicated inside one result batch): the run
returns normally — both assertions pass, since the batch is deduplicated
into a set before they are checked — yet id 0 appears twice, not exactly
once, among the drained results. -/
theorem propagate_duplicate_in_batch :
    propagateRun [0] [[0, 0]] = .ok {0} [[0, 0]] ∧
    ([[0, 0]] : List (List Int)).flatten.count 0 = 2 ∧
    ¬ (∀ id ∈ ([0] : List Int), ([[0, 0]] : List (List Int)).flatten.count id = 1) := by
  refine ⟨by decide, by decide, by decide⟩

/-- C5 (amended): a run of `propagate` that returns has every dispatched
seg_id appearing exactly once among the drained results, provided no
single drained batch carries a duplicated seg_id; and under the
precondition that every batch contains only dispatched ids and none
already completed, the two assertions never fail. -/
theorem propagate_exactly_once (segIds : List Int) (batches : List (List Int)) :
    (∀ fc drained, propagateRun segIds batches = .ok fc drained →
      (∀ b ∈ batches, b.Nodup) →
      ∀ id ∈ segIds, drained.flatten.count id = 1) ∧
    (goodBatches segIds.toFinset ∅ batches = true →
      propagateRun segIds batches ≠ .assertFail) := by
  constructor
  · intro fc drained hok hnd id hid
    obtain ⟨used, hdr, _, hsup, hcard, hcount⟩ :=
      propAux_spec segIds.length segIds.toFinset batches ∅ [] fc drained hok hnd
    have hfc : fc = segIds.toFinset := by
      apply Finset.eq_of_subset_of_card_le
      · intro x hx
        have := hsup hx
        rw [Finset.empty_union] at this
        exact this
      · exact le_trans segIds.toFinset_card_le hcard
    have hin : id ∈ fc := by
      rw [hfc]
      exact List.mem_toFinset.mpr hid
    have := (hcount id).2.1 (Finset.not_mem_empty id) hin
    simpa [hdr] using this
  · intro hg
    exact propAux_safe segIds.length segIds.toFinset batches ∅ [] hg

/-- Witness for `propagate_exactly_once`: two segments, two clean
batches. -/
theorem propagate_exactly_once_witness :
    (∀ id ∈ ([0, 1] : List Int),
      ([[0], [1]] : List (List Int)).flatten.count id = 1) ∧
    propagateRun [0, 1] [[0], [1]] ≠ .assertFail := by
  have h := propagate_exactly_once [0, 1] [[0], [1]]
  refine ⟨?_, h.2 (by decide)⟩
  exact h.1 {0, 1} [[0], [1]] (by decide) (by decide)

/-! ## C3: prepare_iteration error behaviour -/

theorem segChecksA_ok (plen pdim i : Nat) (s : InSegment)
    (h : segChecksA plen pdim i s = .ok ()) :
    s.p_parent_id ≠ none ∧
      ∀ pc, s.pcoord = some pc → pc.nrows ≠ 1 →
        (pc.nrows, pc.ncols) = (plen, pdim) := by
  unfold segChecksA at h
  split at h
  · exact absurd h (by simp)
  · split at h
    · exact absurd h (by simp)
    · rename_i hpp
      refine ⟨hpp, ?_⟩
      intro pc hpc hrows
      simp only [hpc] at h
      rw [if_neg hrows] at h
      split at h
      · exact absurd h (by simp)
      · rename_i hsh
        rw [not_not] at hsh
        exact hsh

theorem checkSegsA_ok (plen pdim : Nat) :
    ∀ (segs : List InSegment) (i : Nat), checkSegsA plen pdim i segs = .ok () →
      ∀ s ∈ segs, s.p_parent_id ≠ none ∧
        ∀ pc, s.pcoord = some pc → pc.nrows ≠ 1 →
          (pc.nrows, pc.ncols) = (plen, pdim) := by
  intro segs
  induction segs with
  | nil => intro i _ s hs; exact absurd hs (List.not_mem_nil s)
  | cons t rest ih =>
    intro i h s hs
    rw [checkSegsA] at h
    split at h
    · exact absurd h (by simp)
    · rename_i u hchk
      rcases List.mem_cons.mp hs with heq | hmem
      · subst heq
        cases u
        exact segChecksA_ok plen pdim i s hchk
      · exact ih (i + 1) h s hmem

theorem writeParents_ok (all : List InSegment) :
    ∀ (rest : List InSegment) (i : Nat) (arr out : List Int),
      writeParents all i rest arr = .ok out →
      ∀ s ∈ rest, s.parent_ids ≠ ∅ ∧
        ∃ p, s.p_parent_id = some p ∧ p ∈ s.parent_ids := by
  intro rest
  induction rest with
  | nil => intro i arr out _ s hs; exact absurd hs (List.not_mem_nil s)
  | cons t rest2 ih =>
    intro i arr out h s hs
    rw [writeParents] at h
    split at h
    · exact absurd h (by simp)
    · split at h
      · exact absurd h (by simp)
      · rename_i hcard hzero
        split at h
        · exact absurd h (by simp)
        · rename_i p hp
          split at h
          · exact absurd h (by simp)
          · rename_i hmem
            rw [not_not] at hmem
            split at h
            · rcases List.mem_cons.mp hs with heq | hmem2
              · subst heq
                refine ⟨?_, p, hp, hmem⟩
                intro hempty
                apply hzero
                rw [storedNParents, segNParents, hempty]
                simp
              · exact ih (i + 1) _ out h s hmem2
            · exact absurd h (by simp)

/-- C3 counterexample: a single segment whose `parent_ids` is empty (with
`p_parent_id` set to 0 and no pcoord) is accepted by `prepare_iteration`
without any error: `total_parents` is 0, so the loop holding the
`extent > 0` and `p_parent_id in parent_ids` assertions is skipped
entirely. -/
theorem prepare_empty_parents_accepted :
    (({ seg_id := none, status := 0, weight := 1, p_parent_id := some 0,
        parent_ids := ∅, pcoord := none } : InSegment).parent_ids = ∅) ∧
    (prepare_iteration 5 2
      [{ seg_id := none, status := 0, weight := 1, p_parent_id := some 0,
         parent_ids := ∅, pcoord := none }]).isOk = true := by
  exact ⟨rfl, by decide⟩

/-- C3 (amended): `prepare_iteration` raises an error whenever some
segment carries a filled pcoord (more than one row) whose shape differs
from `[pcoord_len, pcoord_ndim]`, or — provided the total number of
parents over all segments is positive, so the parents dataset is written
at all — some segment's `parent_ids` is empty or some segment's
`p_parent_id` is not an element of its `parent_ids`. -/
theorem prepare_rejects_invalid (plen pdim : Nat) (segs : List InSegment)
    (hbad :
      (∃ s ∈ segs, ∃ pc, s.pcoord = some pc ∧ 1 < pc.nrows ∧
        (pc.nrows, pc.ncols) ≠ (plen, pdim)) ∨
      (0 < totalParents segs ∧ ∃ s ∈ segs,
        s.parent_ids = ∅ ∨ ∀ p, s.p_parent_id = some p → p ∉ s.parent_ids)) :
    (prepare_iteration plen pdim segs).isOk = false := by
  rw [Bool.eq_false_iff]
  intro hOk
  have hok : ∃ store, prepare_iteration plen pdim segs = .ok store := by
    cases h : prepare_iteration plen pdim segs with
    | error e => rw [h] at hOk; simp [Except.isOk, Except.toBool] at hOk
    | ok store => exact ⟨store, rfl⟩
  obtain ⟨store, hok⟩ := hok
  unfold prepare_iteration at hok
  split at hok
  · exact absurd hok (by simp)
  · rename_i u hchk
    cases u
    rcases hbad with ⟨s, hs, pc, hpc, hrows, hshape⟩ | ⟨htot, s, hs, hlin⟩
    · have := (checkSegsA_ok plen pdim segs 0 hchk s hs).2 pc hpc (by omega)
      exact hshape this
    · rw [if_pos htot] at hok
      split at hok
      · exact absurd hok (by simp)
      · rename_i parents hw
        have hsp := writeParents_ok segs segs 0 _ parents hw s hs
        rcases hlin with hempty | hnp
        · exact hsp.1 hempty
        · obtain ⟨p, hp, hpmem⟩ := hsp.2
          exact hnp p hp hpmem

/-- Witness for `prepare_rejects_invalid`: one segment whose
`p_parent_id = 5` is not in its `parent_ids = {0, 1}`. -/
theorem prepare_rejects_invalid_witness :
    (prepare_iteration 5 2
      [{ seg_id := none, status := 0, weight := 1, p_parent_id := some 5,
         parent_ids := {0, 1}, pcoord := none }]).isOk = false := by
  apply prepare_rejects_invalid
  refine Or.inr ⟨by decide, ?_⟩
  refine ⟨_, List.mem_singleton.mpr rfl, Or.inr ?_⟩
  intro p hp
  injection hp with h
  subst h
  decide

/-! ## C7: update_segments does not touch the lineage -/

theorem set_get_self : ∀ (l : List α) (i : Nat) (a : α),
    l.get? i = some a → l.set i a = l := by
  intro l
  induction l with
  | nil => intro i a h; simp at h
  | cons x xs ih =>
    intro i a h
    cases i with
    | zero =>
      simp only [List.get?] at h
      injection h with h
      subst h
      rfl
    | succ i =>
      simp only [List.get?] at h
      show x :: xs.set i a = x :: xs
      rw [ih i a h]

theorem applySegUpdates_frame :
    ∀ (segs : List USegment) (store store2 : IterStore),
      applySegUpdates store segs = .ok store2 →
      store2.parents = store.parents ∧ lineageCols store2 = lineageCols store := by
  intro segs
  induction segs with
  | nil =>
    intro store store2 h
    rw [applySegUpdates] at h
    injection h with h1
    subst h1
    exact ⟨rfl, rfl⟩
  | cons s rest ih =>
    intro store store2 h
    rw [applySegUpdates] at h
    split at h
    · exact absurd h (by simp)
    · rename_i old hget
      obtain ⟨h1, h2⟩ := ih _ _ h
      refine ⟨h1, ?_⟩
      rw [h2]
      show (store.seg_index.set s.seg_id (updRow old s)).map
        (fun r => (r.parents_offset, r.n_parents)) = lineageCols store
      rw [List.map_set]
      apply set_get_self
      rw [List.get?_map, hget]
      rfl

/-- C7: `update_segments` never modifies the `parents` dataset nor the
`parents_offset` / `n_parents` columns of `seg_index`: the stored lineage
(and with it each segment's position, i.e. its `seg_id`) is bit-identical
before and after the call, while only the mutable fields (weight,
cputime, walltime, status, endpoint_type, pcoord, auxiliary data) can
change. -/
theorem update_segments_frame (store : IterStore) (segs : List USegment)
    (store2 : IterStore) (h : update_segments store segs = .ok store2) :
    store2.parents = store.parents ∧
    lineageCols store2 = lineageCols store ∧
    store2.seg_index.length = store.seg_index.length := by
  unfold update_segments at h
  split at h
  · exact absurd h (by simp)
  · obtain ⟨h1, h2⟩ := applySegUpdates_frame segs _ store2 h
    refine ⟨h1, h2, ?_⟩
    have := congrArg List.length h2
    simpa [lineageCols] using this

/-- Witness for `update_segments_frame`: one row, one updated segment. -/
theorem update_segments_frame_witness :
    (⟨[⟨5, 3, 4, 0, 1, 2, 1⟩], [7], [⟨1, 1, [9]⟩], []⟩ : IterStore).parents
        = (⟨[⟨1, 0, 0, 0, 1, 0, 0⟩], [7], [⟨1, 1, [0]⟩], []⟩ : IterStore).parents ∧
    lineageCols ⟨[⟨5, 3, 4, 0, 1, 2, 1⟩], [7], [⟨1, 1, [9]⟩], []⟩
        = lineageCols ⟨[⟨1, 0, 0, 0, 1, 0, 0⟩], [7], [⟨1, 1, [0]⟩], []⟩ ∧
    (⟨[⟨5, 3, 4, 0, 1, 2, 1⟩], [7], [⟨1, 1, [9]⟩], []⟩ : IterStore).seg_index.length
        = (⟨[⟨1, 0, 0, 0, 1, 0, 0⟩], [7], [⟨1, 1, [0]⟩], []⟩ : IterStore).seg_index.length :=
  update_segments_frame ⟨[⟨1, 0, 0, 0, 1, 0, 0⟩], [7], [⟨1, 1, [0]⟩], []⟩
    [⟨0, 2, some 1, 3, 4, 5, ⟨1, 1, [9]⟩, []⟩]
    ⟨[⟨5, 3, 4, 0, 1, 2, 1⟩], [7], [⟨1, 1, [9]⟩], []⟩ (by decide)

/-! ## C8: get_children returns exactly the primary-parent children -/

theorem slice_head_eq_getD (parents : List Int) (off np : Nat)
    (hoff : off < parents.length) (hnp : 0 < np) :
    ((parents.drop off).take np).head? = some (parents.getD off 0) := by
  rw [List.head?_eq_getElem?, List.getElem?_take_of_lt hnp, List.getElem?_drop]
  simp [List.getD_eq_getElem?_getD, List.getElem?_eq_getElem hoff]

theorem mem_childSegIds (g : IterStore) (pid : Nat) (j : Nat) :
    j ∈ childSegIds g pid ↔
      ∃ row, g.seg_index.get? j = some row ∧
        g.parents.getD row.parents_offset 0 = (pid : Int) := by
  unfold childSegIds
  rw [List.mem_map]
  constructor
  · rintro ⟨⟨i, row⟩, hmem, hj⟩
    rw [List.mem_filter] at hmem
    obtain ⟨henum, hpred⟩ := hmem
    rw [List.mk_mem_enum_iff_getElem?] at henum
    subst hj
    refine ⟨row, ?_, of_decide_eq_true hpred⟩
    rw [List.get?_eq_getElem?]
    exact henum
  · rintro ⟨row, hget, hpid⟩
    refine ⟨(j, row), ?_, rfl⟩
    rw [List.mem_filter, List.mk_mem_enum_iff_getElem?]
    rw [List.get?_eq_getElem?] at hget
    exact ⟨hget, decide_eq_true hpid⟩

theorem get_segments_by_id_ok (g : IterStore) :
    ∀ (ids : List Nat),
      (∀ j ∈ ids, ∃ row, g.seg_index.get? j = some row ∧
        0 < row.n_parents ∧ row.parents_offset < g.parents.length) →
      ∃ outs, get_segments_by_id g ids = .ok outs ∧
        outs.map (·.seg_id) = ids ∧
        ∀ o ∈ outs, ∃ row, g.seg_index.get? o.seg_id = some row ∧
          ((g.parents.drop row.parents_offset).take row.n_parents).head?
            = some o.p_parent_id := by
  intro ids
  induction ids with
  | nil => intro _; exact ⟨[], rfl, rfl, by simp⟩
  | cons j rest ih =>
    intro hids
    obtain ⟨row, hget, hnp, hoff⟩ := hids j (List.mem_cons_self j rest)
    obtain ⟨outs2, hok2, hmap2, hall2⟩ :=
      ih (fun x hx => hids x (List.mem_cons_of_mem _ hx))
    have hslice : ((g.parents.drop row.parents_offset).take row.n_parents).head?
        = some (g.parents.getD row.parents_offset 0) :=
      slice_head_eq_getD g.parents _ _ hoff hnp
    obtain ⟨tail, htail⟩ := List.head?_eq_some_iff.mp hslice
    refine ⟨mkOutSegment g j row (g.parents.getD row.parents_offset 0)
        ((g.parents.drop row.parents_offset).take row.n_parents) :: outs2, ?_, ?_, ?_⟩
    · rw [get_segments_by_id]
      have hread : readSegById g j = .ok (mkOutSegment g j row
          (g.parents.getD row.parents_offset 0)
          ((g.parents.drop row.parents_offset).take row.n_parents)) := by
        unfold readSegById
        rw [hget]
        simp only [htail]
      rw [hread, hok2]
    · simp only [List.map_cons, hmap2, mkOutSegment]
    · intro o ho
      rcases List.mem_cons.mp ho with heq | hmem
      · subst heq
        exact ⟨row, hget, hslice⟩
      · exact hall2 o hmem

/-- C8: `get_children(s)` returns the empty list when `s.n_iter` is the
archive's current iteration; otherwise it returns exactly those segments
of iteration `s.n_iter + 1` whose primary parent — the first entry of
their parents slice — equals `s.seg_id`, and every returned segment
carries that primary parent; segments listing `s` only as a non-primary
parent are not returned. -/
theorem get_children_primary (arch : Archive) (s : SegRef) (g : IterStore)
    (hg : iterGroup arch (s.n_iter + 1) = .ok g)
    (hwf : ∀ row ∈ g.seg_index,
      0 < row.n_parents ∧ row.parents_offset < g.parents.length) :
    (s.n_iter = arch.current_iteration → get_children arch s = .ok []) ∧
    (s.n_iter ≠ arch.current_iteration →
      ∃ outs, get_children arch s = .ok outs ∧
        outs.map (·.seg_id) = childSegIds g s.seg_id ∧
        (∀ j row, g.seg_index.get? j = some row →
          (j ∈ outs.map (·.seg_id) ↔
            ((g.parents.drop row.parents_offset).take row.n_parents).head?
              = some (s.seg_id : Int))) ∧
        (∀ o ∈ outs, o.p_parent_id = (s.seg_id : Int))) := by
  constructor
  · intro heq
    unfold get_children
    rw [if_pos heq]
  · intro hne
    have hpre : ∀ j ∈ childSegIds g s.seg_id, ∃ row,
        g.seg_index.get? j = some row ∧
        0 < row.n_parents ∧ row.parents_offset < g.parents.length := by
      intro j hj
      obtain ⟨row, hget, _⟩ := (mem_childSegIds g s.seg_id j).mp hj
      have hrmem : row ∈ g.seg_index := by
        rw [List.get?_eq_getElem?] at hget
        exact List.getElem?_mem hget
      exact ⟨row, hget, (hwf row hrmem).1, (hwf row hrmem).2⟩
    obtain ⟨outs, hok, hmap, hall⟩ :=
      get_segments_by_id_ok g (childSegIds g s.seg_id) hpre
    have hchild : get_children arch s = .ok outs := by
      unfold get_children
      rw [if_neg hne, hg]
      exact hok
    refine ⟨outs, hchild, hmap, ?_, ?_⟩
    · intro j row hget
      have hrmem : row ∈ g.seg_index := by
        rw [List.get?_eq_getElem?] at hget
        exact List.getElem?_mem hget
      have hhead : ((g.parents.drop row.parents_offset).take row.n_parents).head?
          = some (g.parents.getD row.parents_offset 0) :=
        slice_head_eq_getD g.parents _ _ (hwf row hrmem).2 (hwf row hrmem).1
      rw [hmap, mem_childSegIds, hhead]
      constructor
      · rintro ⟨row2, hget2, hpid2⟩
        rw [hget] at hget2
        injection hget2 with hr
        subst hr
        rw [hpid2]
      · intro hsome
        injection hsome with hv
        exact ⟨row, hget, hv⟩
    · intro o ho
      obtain ⟨row, hget, hhead⟩ := hall o ho
      have hin : o.seg_id ∈ childSegIds g s.seg_id := by
        rw [← hmap]
        exact List.mem_map_of_mem _ ho
      obtain ⟨row2, hget2, hpid2⟩ := (mem_childSegIds g s.seg_id o.seg_id).mp hin
      rw [hget] at hget2
      injection hget2 with hr
      subst hr
      have hrmem : row ∈ g.seg_index := by
        rw [List.get?_eq_getElem?] at hget
        exact List.getElem?_mem hget
      have hhead2 : ((g.parents.drop row.parents_offset).take row.n_parents).head?
          = some (g.parents.getD row.parents_offset 0) :=
        slice_head_eq_getD g.parents _ _ (hwf row hrmem).2 (hwf row hrmem).1
      rw [hhead] at hhead2
      injection hhead2 with hv
      rw [hv, hpid2]

/-- Witness for `get_children_primary`: a two-iteration archive where
iteration 2 has two segments, primary parents 0 and 0; the children of
iteration-1 segment 0 are exactly both. -/
theorem get_children_primary_witness :
    (1 ≠ (2 : Nat)) ∧
    ∃ outs, get_children
        ⟨2, [⟨[⟨1, 0, 0, 0, 1, 0, 0⟩], [0], [⟨1, 1, [0]⟩], []⟩,
             ⟨[⟨1, 0, 0, 0, 1, 0, 0⟩, ⟨1, 0, 0, 1, 2, 0, 0⟩], [0, 0, 5],
              [⟨1, 1, [0]⟩, ⟨1, 1, [0]⟩], []⟩]⟩
        ⟨1, 0⟩ = .ok outs ∧
      outs.map (·.seg_id)
        = childSegIds ⟨[⟨1, 0, 0, 0, 1, 0, 0⟩, ⟨1, 0, 0, 1, 2, 0, 0⟩], [0, 0, 5],
            [⟨1, 1, [0]⟩, ⟨1, 1, [0]⟩], []⟩ 0 := by
  have h := get_children_primary
    ⟨2, [⟨[⟨1, 0, 0, 0, 1, 0, 0⟩], [0], [⟨1, 1, [0]⟩], []⟩,
         ⟨[⟨1, 0, 0, 0, 1, 0, 0⟩, ⟨1, 0, 0, 1, 2, 0, 0⟩], [0, 0, 5],
          [⟨1, 1, [0]⟩, ⟨1, 1, [0]⟩], []⟩]⟩
    ⟨1, 0⟩
    ⟨[⟨1, 0, 0, 0, 1, 0, 0⟩, ⟨1, 0, 0, 1, 2, 0, 0⟩], [0, 0, 5],
     [⟨1, 1, [0]⟩, ⟨1, 1, [0]⟩], []⟩
    (by decide) (by decide)
  obtain ⟨outs, hok, hmap, _, _⟩ := h.2 (by decide)
  exact ⟨by decide, outs, hok, hmap⟩

/-! ## C1 and C9: lineage serialization round-trip and prefix-sum offsets -/

theorem pureOffset_zero (segs : List InSegment) : pureOffset segs 0 = 0 := rfl

theorem pureOffset_succ (segs : List InSegment) (i : Nat) (s : InSegment)
    (h : segs.get? i = some s) :
    pureOffset segs (i + 1) = pureOffset segs i + segNParents s := by
  unfold pureOffset
  rw [List.take_succ, List.map_append, List.sum_append]
  rw [List.get?_eq_getElem?] at h
  rw [h]
  simp

theorem total_split (segs : List InSegment) (i : Nat) :
    totalParents segs
      = pureOffset segs i + ((segs.drop i).map segNParents).sum := by
  unfold totalParents pureOffset
  conv_lhs => rw [← List.take_append_drop i segs]
  rw [List.map_append, List.sum_append]

theorem pureOffset_le_total (segs : List InSegment) (i : Nat) :
    pureOffset segs i ≤ totalParents segs := by
  rw [total_split segs i]
  omega

theorem pureOffset_eq_total (segs : List InSegment) (i : Nat)
    (h : segs.length ≤ i) : pureOffset segs i = totalParents segs := by
  unfold pureOffset totalParents
  rw [List.take_of_length_le h]

theorem segNParents_le_total (segs : List InSegment) (s : InSegment)
    (h : s ∈ segs) : segNParents s ≤ totalParents segs := by
  exact List.single_le_sum (fun x _ => Nat.zero_le x) _
    (List.mem_map_of_mem segNParents h)

theorem storedOffset_eq (segs : List InSegment) (i : Nat)
    (Htot : totalParents segs < U32) : storedOffset segs i = pureOffset segs i :=
  Nat.mod_eq_of_lt (lt_of_le_of_lt (pureOffset_le_total segs i) Htot)

theorem storedNParents_eq (segs : List InSegment) (s : InSegment) (h : s ∈ segs)
    (Htot : totalParents segs < U32) : storedNParents s = segNParents s :=
  Nat.mod_eq_of_lt (lt_of_le_of_lt (segNParents_le_total segs s h) Htot)

theorem parentSlice_length (s : InSegment) (p : Int) (hp : s.p_parent_id = some p)
    (hmem : p ∈ s.parent_ids) : (parentSlice s).length = segNParents s := by
  unfold parentSlice segNParents
  rw [hp]
  simp only [List.length_cons, Finset.length_sort,
    Finset.card_erase_of_mem hmem]
  have : 0 < s.parent_ids.card := Finset.card_pos.mpr ⟨p, hmem⟩
  omega

theorem parentSlice_toFinset (s : InSegment) (p : Int)
    (hp : s.p_parent_id = some p) (hmem : p ∈ s.parent_ids) :
    (parentSlice s).toFinset = s.parent_ids := by
  unfold parentSlice
  rw [hp]
  simp only [List.toFinset_cons, Finset.sort_toFinset]
  exact Finset.insert_erase hmem

theorem parentSlice_head (s : InSegment) (p : Int) (hp : s.p_parent_id = some p) :
    ∃ tail, parentSlice s = p :: tail := by
  unfold parentSlice
  rw [hp]
  exact ⟨_, rfl⟩

theorem writeAt_length (arr vals : List Int) (off : Nat)
    (h : off + vals.length ≤ arr.length) :
    (writeAt arr off vals).length = arr.length := by
  unfold writeAt
  simp only [List.length_append, List.length_take, List.length_drop]
  omega

theorem writeAt_take (arr vals : List Int) (off : Nat)
    (h : off + vals.length ≤ arr.length) :
    (writeAt arr off vals).take (off + vals.length) = arr.take off ++ vals := by
  unfold writeAt
  have h1 : (arr.take off).length = off := by
    rw [List.length_take]
    omega
  rw [List.append_assoc,
    show off + vals.length = (arr.take off).length + vals.length by rw [h1],
    List.take_append, List.take_left]

theorem writeAt_readback (arr vals : List Int) (off : Nat)
    (h : off + vals.length ≤ arr.length) :
    ((writeAt arr off vals).drop off).take vals.length = vals := by
  unfold writeAt
  have h1 : (arr.take off).length = off := by
    rw [List.length_take]
    omega
  rw [List.append_assoc, List.drop_left' h1, List.take_left]

theorem writeParents_join (segs : List InSegment)
    (Hval : ∀ s ∈ segs, ∃ p, s.p_parent_id = some p ∧ p ∈ s.parent_ids)
    (Htot : totalParents segs < U32) :
    ∀ (rest : List InSegment) (i : Nat) (arr : List Int),
      rest = segs.drop i → arr.length = totalParents segs →
      writeParents segs i rest arr
        = .ok (arr.take (pureOffset segs i) ++ (rest.map parentSlice).flatten) := by
  intro rest
  induction rest with
  | nil =>
    intro i arr hdrop hlen
    rw [writeParents]
    have hge : segs.length ≤ i := by
      by_contra hlt
      have hne : segs.drop i ≠ [] := by
        intro hnil
        have := congrArg List.length hnil
        simp only [List.length_drop, List.length_nil] at this
        omega
      exact hne hdrop.symm
    rw [pureOffset_eq_total segs i hge, ← hlen, List.take_length]
    simp
  | cons s rest2 ih =>
    intro i arr hdrop hlen
    have hget2 : segs[i]? = some s := by
      have h0 : (segs.drop i)[0]? = some s := by rw [← hdrop]; simp
      rw [List.getElem?_drop] at h0
      simpa using h0
    have hsmem : s ∈ segs := List.getElem?_mem hget2
    have hget : segs.get? i = some s := by
      rw [List.get?_eq_getElem?]; exact hget2
    have hdrop2 : rest2 = segs.drop (i + 1) := by
      have hdd : (segs.drop i).tail = segs.drop (i + 1) := List.tail_drop segs i
      rw [← hdrop] at hdd
      simpa using hdd
    obtain ⟨p, hp, hpmem⟩ := Hval s hsmem
    have hcard_pos : 0 < segNParents s := Finset.card_pos.mpr ⟨p, hpmem⟩
    have hsn : storedNParents s = segNParents s := storedNParents_eq segs s hsmem Htot
    have hso : storedOffset segs i = pureOffset segs i := storedOffset_eq segs i Htot
    have hpsucc : pureOffset segs (i + 1) = pureOffset segs i + segNParents s :=
      pureOffset_succ segs i s hget
    have hslice_len : (parentSlice s).length = segNParents s :=
      parentSlice_length s p hp hpmem
    have hbound : pureOffset segs i + (parentSlice s).length ≤ arr.length := by
      rw [hslice_len, hlen, ← hpsucc]
      exact pureOffset_le_total segs (i + 1)
    rw [writeParents, hso]
    rw [if_neg (not_ne_iff.mpr hsn)]
    rw [if_neg (by rw [hsn]; omega : ¬ storedNParents s = 0)]
    simp only [hp]
    rw [if_neg (not_not_intro hpmem)]
    have hread : (((writeAt arr (pureOffset segs i) (parentSlice s)).drop
        (pureOffset segs i)).take (storedNParents s)).toFinset = s.parent_ids := by
      rw [hsn, ← hslice_len, writeAt_readback arr (parentSlice s) _ hbound]
      exact parentSlice_toFinset s p hp hpmem
    rw [if_pos hread]
    rw [ih (i + 1) (writeAt arr (pureOffset segs i) (parentSlice s)) hdrop2
      ((writeAt_length arr _ _ hbound).trans hlen)]
    congr 1
    rw [List.map_cons, List.flatten_cons, hpsucc, ← hslice_len,
      writeAt_take arr _ _ hbound, List.append_assoc]

theorem prepare_ok_store (plen pdim : Nat) (segs : List InSegment)
    (store : IterStore)
    (Hval : ∀ s ∈ segs, ∃ p, s.p_parent_id = some p ∧ p ∈ s.parent_ids)
    (Htot : totalParents segs < U32)
    (hok : prepare_iteration plen pdim segs = .ok store) :
    store.seg_index = segs.enum.map (fun q => prepRow segs q.1 q.2) ∧
    store.parents = (segs.map parentSlice).flatten := by
  unfold prepare_iteration at hok
  split at hok
  · exact absurd hok (by simp)
  · split at hok
    · rename_i htot
      rw [writeParents_join segs Hval Htot segs 0 _ rfl (by simp)] at hok
      injection hok with h1
      subst h1
      exact ⟨rfl, rfl⟩
    · rename_i htot
      cases segs with
      | nil =>
        injection hok with h1
        subst h1
        exact ⟨rfl, rfl⟩
      | cons s rest =>
        obtain ⟨p, _, hpmem⟩ := Hval s (List.mem_cons_self s rest)
        have h1 : 0 < segNParents s := Finset.card_pos.mpr ⟨p, hpmem⟩
        have h2 : segNParents s ≤ totalParents (s :: rest) :=
          segNParents_le_total _ s (List.mem_cons_self s rest)
        omega

theorem flatten_slice_at (segs : List InSegment)
    (Hval : ∀ s ∈ segs, ∃ p, s.p_parent_id = some p ∧ p ∈ s.parent_ids)
    (i : Nat) (s : InSegment) (hs : segs.get? i = some s) :
    (((segs.map parentSlice).flatten).drop (pureOffset segs i)).take
        (segNParents s) = parentSlice s := by
  have hlenA : (((segs.take i).map parentSlice).flatten).length
      = pureOffset segs i := by
    rw [List.length_flatten]
    unfold pureOffset
    congr 1
    rw [List.map_map]
    apply List.map_congr_left
    intro x hx
    have hxs : x ∈ segs := List.mem_of_mem_take hx
    obtain ⟨p, hp, hpmem⟩ := Hval x hxs
    exact parentSlice_length x p hp hpmem
  have hsplit : (segs.map parentSlice).flatten
      = ((segs.take i).map parentSlice).flatten
        ++ ((segs.drop i).map parentSlice).flatten := by
    conv_lhs => rw [← List.take_append_drop i segs]
    rw [List.map_append, List.flatten_append]
  rw [hsplit, List.drop_left' hlenA]
  have hi : i < segs.length := by
    rw [List.get?_eq_getElem?] at hs
    exact (List.getElem?_eq_some_iff.mp hs).1
  have hdropc : segs.drop i = s :: segs.drop (i + 1) := by
    rw [List.get?_eq_getElem?, List.getElem?_eq_getElem hi] at hs
    injection hs with h
    rw [List.drop_eq_getElem_cons hi, h]
  rw [hdropc, List.map_cons, List.flatten_cons]
  obtain ⟨p, hp, hpmem⟩ := Hval s (List.getElem?_mem (by
    rw [List.get?_eq_getElem?] at hs; exact hs))
  rw [← parentSlice_length s p hp hpmem, List.take_left]

theorem readSegs_ok_general (store : IterStore) :
    ∀ (rows : List SegIndexRow) (k : Nat),
      (∀ j row, rows.get? j = some row → ∃ o, readSeg store (k + j) row = .ok o) →
      ∃ outs, readSegs store k rows = .ok outs ∧ outs.length = rows.length ∧
        ∀ j row, rows.get? j = some row →
          ∃ o, outs.get? j = some o ∧ readSeg store (k + j) row = .ok o := by
  intro rows
  induction rows with
  | nil =>
    intro k _
    refine ⟨[], rfl, rfl, ?_⟩
    intro j row h
    simp [List.get?_eq_getElem?] at h
  | cons row rest ih =>
    intro k hall
    obtain ⟨o, ho⟩ := hall 0 row rfl
    simp only [Nat.add_zero] at ho
    obtain ⟨outs2, hok2, hlen2, hpt2⟩ := ih (k + 1) (fun j r hj => by
      obtain ⟨o2, ho2⟩ := hall (j + 1) r hj
      exact ⟨o2, by rw [show k + 1 + j = k + (j + 1) by omega]; exact ho2⟩)
    refine ⟨o :: outs2, ?_, by simp [hlen2], ?_⟩
    · rw [readSegs, ho, hok2]
    · intro j r hj
      cases j with
      | zero =>
        have hr : row = r := by
          injection hj
        subst hr
        exact ⟨o, rfl, by simpa using ho⟩
      | succ j =>
        obtain ⟨o2, ho2g, ho2r⟩ := hpt2 j r hj
        exact ⟨o2, ho2g, by rw [show k + (j + 1) = k + 1 + j by omega]; exact ho2r⟩

theorem readSeg_prepared (segs : List InSegment) (store : IterStore)
    (Hval : ∀ s ∈ segs, ∃ p, s.p_parent_id = some p ∧ p ∈ s.parent_ids)
    (Htot : totalParents segs < U32)
    (hpar : store.parents = (segs.map parentSlice).flatten)
    (i : Nat) (s : InSegment) (hs : segs.get? i = some s) (p : Int)
    (hp : s.p_parent_id = some p) (hpmem : p ∈ s.parent_ids) :
    readSeg store i (prepRow segs i s)
      = .ok (mkOutSegment store i (prepRow segs i s) p (parentSlice s)) := by
  have hsmem : s ∈ segs := by
    rw [List.get?_eq_getElem?] at hs
    exact List.getElem?_mem hs
  have hrow_off : (prepRow segs i s).parents_offset = pureOffset segs i :=
    storedOffset_eq segs i Htot
  have hrow_np : (prepRow segs i s).n_parents = segNParents s :=
    storedNParents_eq segs s hsmem Htot
  have hslice : (store.parents.drop (prepRow segs i s).parents_offset).take
      (prepRow segs i s).n_parents = parentSlice s := by
    rw [hrow_off, hrow_np, hpar]
    exact flatten_slice_at segs Hval i s hs
  obtain ⟨tail, htail⟩ := parentSlice_head s p hp
  have hcard : (parentSlice s).toFinset.card = (prepRow segs i s).n_parents := by
    rw [parentSlice_toFinset s p hp hpmem, hrow_np]
    rfl
  unfold readSeg
  simp only [hslice, htail]
  rw [← htail, if_pos hcard]

/-- C1: for a valid segment list (with the stored lineage small enough to
fit the uint32 offset columns), `prepare_iteration` followed by
`get_segments` reproduces every segment's `parent_ids` and `p_parent_id`
exactly; the reconstructed `p_parent_id` is the parents-vector entry at
that segment's stored `parents_offset`, and the stored slice is the
primary parent followed by the remaining parents in ascending order. -/
theorem lineage_roundtrip (plen pdim : Nat) (segs : List InSegment)
    (store : IterStore)
    (Hval : ∀ s ∈ segs, ∃ p, s.p_parent_id = some p ∧ p ∈ s.parent_ids)
    (Htot : totalParents segs < U32)
    (Hok : prepare_iteration plen pdim segs = .ok store) :
    ∃ outs, get_segments store = .ok outs ∧ outs.length = segs.length ∧
      ∀ i s, segs.get? i = some s → ∃ o p, outs.get? i = some o ∧
        s.p_parent_id = some p ∧
        o.p_parent_id = p ∧
        o.parent_ids = s.parent_ids ∧
        store.parents.getD (storedOffset segs i) 0 = p ∧
        (store.parents.drop (storedOffset segs i)).take (storedNParents s)
          = p :: (s.parent_ids.erase p).sort (· ≤ ·) ∧
        List.Sorted (· < ·)
          (((store.parents.drop (storedOffset segs i)).take
            (storedNParents s)).tail) := by
  obtain ⟨hrows, hpar⟩ := prepare_ok_store plen pdim segs store Hval Htot Hok
  have hrowget : ∀ j s, segs.get? j = some s →
      store.seg_index.get? j = some (prepRow segs j s) := by
    intro j s hj
    rw [hrows, List.get?_eq_getElem?, List.getElem?_map, List.getElem?_enum]
    rw [List.get?_eq_getElem?] at hj
    rw [hj]
    rfl
  have hrowget2 : ∀ j row, store.seg_index.get? j = some row →
      ∃ s, segs.get? j = some s ∧ row = prepRow segs j s := by
    intro j row hj
    rw [hrows, List.get?_eq_getElem?, List.getElem?_map, List.getElem?_enum] at hj
    cases hsegj : segs[j]? with
    | none => rw [hsegj] at hj; exact absurd hj (by simp)
    | some s =>
      rw [hsegj] at hj
      refine ⟨s, by rw [List.get?_eq_getElem?]; exact hsegj, ?_⟩
      injection hj with h
      exact h.symm
  obtain ⟨outs, hok, hlen, hpt⟩ := readSegs_ok_general store store.seg_index 0
    (by
      intro j row hj
      obtain ⟨s, hsj, hrow⟩ := hrowget2 j row hj
      have hsmem : s ∈ segs := by
        rw [List.get?_eq_getElem?] at hsj
        exact List.getElem?_mem hsj
      obtain ⟨p, hp, hpmem⟩ := Hval s hsmem
      subst hrow
      exact ⟨_, by simpa using readSeg_prepared segs store Hval Htot hpar j s hsj p hp hpmem⟩)
  refine ⟨outs, hok, ?_, ?_⟩
  · rw [hlen, hrows]
    simp
  · intro i s hs
    have hsmem : s ∈ segs := by
      rw [List.get?_eq_getElem?] at hs
      exact List.getElem?_mem hs
    obtain ⟨p, hp, hpmem⟩ := Hval s hsmem
    obtain ⟨o, hog, hor⟩ := hpt i (prepRow segs i s) (hrowget i s hs)
    have hor2 : readSeg store i (prepRow segs i s)
        = .ok (mkOutSegment store i (prepRow segs i s) p (parentSlice s)) :=
      readSeg_prepared segs store Hval Htot hpar i s hs p hp hpmem
    rw [show (0 : Nat) + i = i by omega] at hor
    rw [hor2] at hor
    injection hor with ho
    have hslice : (store.parents.drop (storedOffset segs i)).take
        (storedNParents s) = parentSlice s := by
      rw [storedOffset_eq segs i Htot, storedNParents_eq segs s hsmem Htot, hpar]
      exact flatten_slice_at segs Hval i s hs
    obtain ⟨tail, htail⟩ := parentSlice_head s p hp
    have hslice2 : parentSlice s = p :: (s.parent_ids.erase p).sort (· ≤ ·) := by
      unfold parentSlice
      rw [hp]
    refine ⟨o, p, hog, hp, ?_, ?_, ?_, ?_, ?_⟩
    · rw [← ho]
      rfl
    · rw [← ho]
      show (parentSlice s).toFinset = s.parent_ids
      exact parentSlice_toFinset s p hp hpmem
    · have hhead : ((store.parents.drop (storedOffset segs i)).take
          (storedNParents s)).head? = some p := by
        rw [hslice, htail]
        rfl
      have hnp_pos : 0 < storedNParents s := by
        rw [storedNParents_eq segs s hsmem Htot]
        exact Finset.card_pos.mpr ⟨p, hpmem⟩
      rw [List.head?_eq_getElem?, List.getElem?_take_of_lt hnp_pos,
        List.getElem?_drop, Nat.add_zero] at hhead
      rw [List.getD_eq_getElem?_getD, hhead]
      rfl
    · rw [hslice, hslice2]
    · rw [hslice, hslice2]
      exact Finset.sort_sorted_lt _

/-- Witness for `lineage_roundtrip`: one segment, parents {5, 7},
primary parent 7. -/
theorem lineage_roundtrip_witness :
    ∃ outs, get_segments ⟨[⟨1, 0, 0, 0, 2, 0, 0⟩], [7, 5], [⟨1, 1, [0]⟩], []⟩
        = .ok outs ∧
      outs.length = 1 ∧
      ∀ i s, ([⟨none, 0, 1, some 7, {5, 7}, none⟩] : List InSegment).get? i
          = some s →
        ∃ o p, outs.get? i = some o ∧
          s.p_parent_id = some p ∧ o.p_parent_id = p ∧
          o.parent_ids = s.parent_ids ∧
          (⟨[⟨1, 0, 0, 0, 2, 0, 0⟩], [7, 5], [⟨1, 1, [0]⟩], []⟩ :
              IterStore).parents.getD
            (storedOffset [⟨none, 0, 1, some 7, {5, 7}, none⟩] i) 0 = p ∧
          ((⟨[⟨1, 0, 0, 0, 2, 0, 0⟩], [7, 5], [⟨1, 1, [0]⟩], []⟩ :
              IterStore).parents.drop
            (storedOffset [⟨none, 0, 1, some 7, {5, 7}, none⟩] i)).take
              (storedNParents s)
            = p :: (s.parent_ids.erase p).sort (· ≤ ·) ∧
          List.Sorted (· < ·)
            ((((⟨[⟨1, 0, 0, 0, 2, 0, 0⟩], [7, 5], [⟨1, 1, [0]⟩], []⟩ :
                IterStore).parents.drop
              (storedOffset [⟨none, 0, 1, some 7, {5, 7}, none⟩] i)).take
                (storedNParents s)).tail) := by
  apply lineage_roundtrip 1 1 [⟨none, 0, 1, some 7, {5, 7}, none⟩]
  · intro s hs
    rw [List.mem_singleton] at hs
    subst hs
    exact ⟨7, rfl, by decide⟩
  · decide
  · have hps : parentSlice ⟨none, 0, 1, some 7, {5, 7}, none⟩ = [7, 5] := by
      show 7 :: (({5, 7} : Finset Int).erase 7).sort (· ≤ ·) = [7, 5]
      rw [show ({5, 7} : Finset Int).erase 7 = {5} by decide, Finset.sort_singleton]
    unfold prepare_iteration
    rw [show checkSegsA 1 1 0 [⟨none, 0, 1, some 7, {5, 7}, none⟩]
        = Except.ok () from rfl]
    rw [if_pos (by decide : 0 < totalParents [⟨none, 0, 1, some 7, {5, 7}, none⟩])]
    rw [show writeParents [⟨none, 0, 1, some 7, {5, 7}, none⟩] 0
        [⟨none, 0, 1, some 7, {5, 7}, none⟩]
        (List.replicate (totalParents [⟨none, 0, 1, some 7, {5, 7}, none⟩]) 0)
        = Except.ok [7, 5] from ?_]
    · rfl
    · rw [writeParents]
      rw [if_neg (by decide), if_neg (by decide)]
      simp only
      rw [if_neg (by decide : ¬ (7 : Int) ∉ ({5, 7} : Finset Int))]
      rw [show writeAt (List.replicate
          (totalParents [⟨none, 0, 1, some 7, {5, 7}, none⟩]) 0)
          (storedOffset [⟨none, 0, 1, some 7, {5, 7}, none⟩] 0)
          (parentSlice ⟨none, 0, 1, some 7, {5, 7}, none⟩) = [7, 5] by
        rw [hps]; rfl]
      rw [if_pos (by decide)]
      rfl

theorem prepared_rows_get (segs : List InSegment) (store : IterStore)
    (hrows : store.seg_index = segs.enum.map (fun q => prepRow segs q.1 q.2)) :
    ∀ j row, store.seg_index.get? j = some row →
      ∃ s, segs.get? j = some s ∧ row = prepRow segs j s := by
  intro j row hj
  rw [hrows, List.get?_eq_getElem?, List.getElem?_map, List.getElem?_enum] at hj
  cases hsegj : segs[j]? with
  | none => rw [hsegj] at hj; exact absurd hj (by simp)
  | some s =>
    rw [hsegj] at hj
    refine ⟨s, by rw [List.get?_eq_getElem?]; exact hsegj, ?_⟩
    injection hj with h
    exact h.symm

/-- C9: in an iteration written by `prepare_iteration`, the stored
`parents_offset` column is the exact prefix sum of `n_parents`:
`parents_offset[0] = 0` and
`parents_offset[i+1] = parents_offset[i] + n_parents[i]`, and the sum of
`n_parents` equals the length of the `parents` vector. -/
theorem parents_offset_prefix_sum (plen pdim : Nat) (segs : List InSegment)
    (store : IterStore)
    (Hval : ∀ s ∈ segs, ∃ p, s.p_parent_id = some p ∧ p ∈ s.parent_ids)
    (Htot : totalParents segs < U32)
    (Hok : prepare_iteration plen pdim segs = .ok store) :
    (∀ row0, store.seg_index.get? 0 = some row0 → row0.parents_offset = 0) ∧
    (∀ i r r2, store.seg_index.get? i = some r →
      store.seg_index.get? (i + 1) = some r2 →
      r2.parents_offset = r.parents_offset + r.n_parents) ∧
    (store.seg_index.map (·.n_parents)).sum = store.parents.length := by
  obtain ⟨hrows, hpar⟩ := prepare_ok_store plen pdim segs store Hval Htot Hok
  refine ⟨?_, ?_, ?_⟩
  · intro row0 h0
    obtain ⟨s, _, hrow⟩ := prepared_rows_get segs store hrows 0 row0 h0
    subst hrow
    show storedOffset segs 0 = 0
    unfold storedOffset
    rw [pureOffset_zero]
    exact Nat.zero_mod _
  · intro i r r2 hi hi1
    obtain ⟨s, hs, hrow⟩ := prepared_rows_get segs store hrows i r hi
    obtain ⟨s2, _, hrow2⟩ := prepared_rows_get segs store hrows (i + 1) r2 hi1
    subst hrow
    subst hrow2
    have hsmem : s ∈ segs := by
      rw [List.get?_eq_getElem?] at hs
      exact List.getElem?_mem hs
    show storedOffset segs (i + 1) = storedOffset segs i + storedNParents s
    rw [storedOffset_eq segs (i + 1) Htot, storedOffset_eq segs i Htot,
      storedNParents_eq segs s hsmem Htot]
    exact pureOffset_succ segs i s hs
  · rw [hrows, hpar, List.map_map, List.length_flatten, List.map_map]
    have h1 : ((fun r : SegIndexRow => r.n_parents)
          ∘ fun q : Nat × InSegment => prepRow segs q.1 q.2)
        = (fun q : Nat × InSegment => storedNParents q.2) := rfl
    rw [h1]
    have h3 : segs.enum.map (fun q => storedNParents q.2)
        = segs.map storedNParents := by
      have : (fun q : Nat × InSegment => storedNParents q.2)
          = storedNParents ∘ Prod.snd := rfl
      rw [this, ← List.map_map, List.enum_map_snd]
    rw [h3]
    have h4 : segs.map storedNParents = segs.map segNParents :=
      List.map_congr_left (fun s hs => storedNParents_eq segs s hs Htot)
    have h5 : segs.map (List.length ∘ parentSlice) = segs.map segNParents :=
      List.map_congr_left (fun s hs => by
        obtain ⟨p, hp, hpmem⟩ := Hval s hs
        exact parentSlice_length s p hp hpmem)
    rw [h4, ← h5]

/-- Witness for `parents_offset_prefix_sum`: two segments with 2 and 1
parents. -/
theorem parents_offset_prefix_sum_witness :
    (∀ row0, (⟨[⟨1, 0, 0, 0, 2, 0, 0⟩, ⟨1, 0, 0, 2, 1, 0, 0⟩], [7, 5, 0],
        [⟨1, 1, [0]⟩, ⟨1, 1, [0]⟩], []⟩ : IterStore).seg_index.get? 0
          = some row0 → row0.parents_offset = 0) ∧
    (∀ i r r2, (⟨[⟨1, 0, 0, 0, 2, 0, 0⟩, ⟨1, 0, 0, 2, 1, 0, 0⟩], [7, 5, 0],
        [⟨1, 1, [0]⟩, ⟨1, 1, [0]⟩], []⟩ : IterStore).seg_index.get? i = some r →
      (⟨[⟨1, 0, 0, 0, 2, 0, 0⟩, ⟨1, 0, 0, 2, 1, 0, 0⟩], [7, 5, 0],
        [⟨1, 1, [0]⟩, ⟨1, 1, [0]⟩], []⟩ : IterStore).seg_index.get? (i + 1)
          = some r2 →
      r2.parents_offset = r.parents_offset + r.n_parents) ∧
    ((⟨[⟨1, 0, 0, 0, 2, 0, 0⟩, ⟨1, 0, 0, 2, 1, 0, 0⟩], [7, 5, 0],
        [⟨1, 1, [0]⟩, ⟨1, 1, [0]⟩], []⟩ : IterStore).seg_index.map
          (·.n_parents)).sum
      = (⟨[⟨1, 0, 0, 0, 2, 0, 0⟩, ⟨1, 0, 0, 2, 1, 0, 0⟩], [7, 5, 0],
          [⟨1, 1, [0]⟩, ⟨1, 1, [0]⟩], []⟩ : IterStore).parents.length := by
  apply parents_offset_prefix_sum 1 1
    [⟨none, 0, 1, some 7, {5, 7}, none⟩, ⟨none, 0, 1, some 0, {0}, none⟩]
  · intro s hs
    rcases List.mem_cons.mp hs with h | h
    · subst h
      exact ⟨7, rfl, by decide⟩
    · rw [List.mem_singleton] at h
      subst h
      exact ⟨0, rfl, by decide⟩
  · decide
  · have hps1 : parentSlice ⟨none, 0, 1, some 7, {5, 7}, none⟩ = [7, 5] := by
      show 7 :: (({5, 7} : Finset Int).erase 7).sort (· ≤ ·) = [7, 5]
      rw [show ({5, 7} : Finset Int).erase 7 = {5} by decide, Finset.sort_singleton]
    have hps2 : parentSlice ⟨none, 0, 1, some 0, {0}, none⟩ = [0] := by
      show 0 :: (({0} : Finset Int).erase 0).sort (· ≤ ·) = [0]
      rw [Finset.erase_singleton, Finset.sort_empty]
    unfold prepare_iteration
    rw [show checkSegsA 1 1 0 [⟨none, 0, 1, some 7, {5, 7}, none⟩,
        ⟨none, 0, 1, some 0, {0}, none⟩] = Except.ok () from rfl]
    rw [if_pos (by decide : 0 < totalParents [⟨none, 0, 1, some 7, {5, 7}, none⟩,
        ⟨none, 0, 1, some 0, {0}, none⟩])]
    rw [show writeParents [⟨none, 0, 1, some 7, {5, 7}, none⟩,
        ⟨none, 0, 1, some 0, {0}, none⟩] 0
        [⟨none, 0, 1, some 7, {5, 7}, none⟩, ⟨none, 0, 1, some 0, {0}, none⟩]
        (List.replicate (totalParents [⟨none, 0, 1, some 7, {5, 7}, none⟩,
          ⟨none, 0, 1, some 0, {0}, none⟩]) 0)
        = Except.ok [7, 5, 0] from ?_]
    · rfl
    · rw [writeParents]
      rw [if_neg (by decide), if_neg (by decide)]
      simp only
      rw [if_neg (by decide : ¬ (7 : Int) ∉ ({5, 7} : Finset Int))]
      rw [show writeAt (List.replicate (totalParents
          [⟨none, 0, 1, some 7, {5, 7}, none⟩,
           ⟨none, 0, 1, some 0, {0}, none⟩]) 0)
          (storedOffset [⟨none, 0, 1, some 7, {5, 7}, none⟩,
            ⟨none, 0, 1, some 0, {0}, none⟩] 0)
          (parentSlice ⟨none, 0, 1, some 7, {5, 7}, none⟩) = [7, 5, 0] by
        rw [hps1]; rfl]
      rw [if_pos (by decide)]
      rw [writeParents]
      rw [if_neg (by decide), if_neg (by decide)]
      simp only
      rw [if_neg (by decide : ¬ (0 : Int) ∉ ({0} : Finset Int))]
      rw [show writeAt [7, 5, 0]
          (storedOffset [⟨none, 0, 1, some 7, {5, 7}, none⟩,
            ⟨none, 0, 1, some 0, {0}, none⟩] 1)
          (parentSlice ⟨none, 0, 1, some 0, {0}, none⟩) = [7, 5, 0] by
        rw [hps2]; rfl]
      rw [if_pos (by decide)]
      rfl

end WEMD
